import Mathlib

/-!
Verification development for the jottalib repository, covering the
restic REST gateway (src/restic-server.py) and the Qt tree model
(src/jottalib/qt.py).  Paths and other Python strings are embedded as
lists of characters, byte strings as lists of natural numbers, and the
remote storage client as an explicit association-list state threaded
through every operation.
-/

/-- Convert a string literal to the character-list representation used
throughout this development. -/
def chars (s : String) : List Char := s.toList

/-! ### Embedding of the Python string and posixpath helpers

These follow the CPython implementations of str.split, str.join,
posixpath.join, posixpath.normpath and posixpath.split that the source
relies on. -/

/-- Python str.split with separator the slash character: splits on every
slash and keeps empty components, so the result is always nonempty. -/
def splitSlash : List Char → List (List Char)
  | [] => [[]]
  | c :: cs =>
    if c = '/' then [] :: splitSlash cs
    else
      match splitSlash cs with
      | [] => [[c]]
      | w :: ws => (c :: w) :: ws

/-- Python slash.join over a list of components. -/
def joinComps : List (List Char) → List Char
  | [] => []
  | [w] => w
  | w :: ws => w ++ '/' :: joinComps ws

/-- The initial-slash count computed by posixpath.normpath: 2 for a path
starting with exactly two slashes, otherwise 1 for a path starting with a
slash, otherwise 0. -/
def initialSlashes (p : List Char) : Nat :=
  if p.take 2 = ['/', '/'] ∧ ¬ (p.take 3 = ['/', '/', '/']) then 2
  else if p.take 1 = ['/'] then 1
  else 0

/-- The component-filtering loop of posixpath.normpath.  The accumulator
holds the kept components in reverse order, mirroring append/pop on the
tail of the Python list. -/
def newComps (k : Nat) : List (List Char) → List (List Char) → List (List Char)
  | acc, [] => acc.reverse
  | acc, comp :: rest =>
    if comp = [] ∨ comp = ['.'] then
      newComps k acc rest
    else if comp ≠ ['.', '.'] ∨ (k = 0 ∧ acc = []) ∨
            (acc ≠ [] ∧ acc.head? = some ['.', '.']) then
      newComps k (comp :: acc) rest
    else
      newComps k acc.tail rest

/-- posixpath.normpath. -/
def normpath (p : List Char) : List Char :=
  if p = [] then ['.']
  else
    let k := initialSlashes p
    let comps := newComps k [] (splitSlash p)
    let r := List.replicate k '/' ++ joinComps comps
    if r = [] then ['.'] else r

/-- posixpath.join restricted to two arguments, as used by the source. -/
def posixJoin (a b : List Char) : List Char :=
  if b.take 1 = ['/'] then b
  else if a = [] ∨ a.getLast? = some '/' then a ++ b
  else a ++ '/' :: b

/-- normalize_path from restic-server.py: join the path onto the root and
normalize the result. -/
def normalize_path (path : List Char) : List Char :=
  normpath (posixJoin (chars "/") path)

/-- build_repo_path from restic-server.py. -/
def build_repo_path (repo dir : List Char) : List Char :=
  normalize_path (posixJoin repo dir)

/-- Strip trailing slashes, as Python str.rstrip with a slash argument. -/
def rstripSlash (h : List Char) : List Char :=
  (h.reverse.dropWhile (fun c => c = '/')).reverse

/-- posixpath.split: break a path at its final slash, keeping the slash
with the head unless the head is all slashes, in which case it is kept
whole; the head is stripped of trailing slashes otherwise. -/
def pySplitPath (p : List Char) : List Char × List Char :=
  let tl := (p.reverse.takeWhile (fun c => ¬ (c = '/'))).reverse
  let hd := (p.reverse.dropWhile (fun c => ¬ (c = '/'))).reverse
  let hd2 := if hd ≠ [] ∧ hd ≠ List.replicate hd.length '/' then rstripSlash hd else hd
  (hd2, tl)

/-- posixpath.dirname. -/
def dirname (p : List Char) : List Char := (pySplitPath p).1

/-- posixpath.basename. -/
def basename (p : List Char) : List Char := (pySplitPath p).2

/-! ### The remote storage client, modelled as explicit state

The jottalib JFS client is external to this repository; following its
interface as the spec describes it (typed objects with a name, a size, a
deleted flag, child enumeration and mount points; path resolution that
raises JFSError on a missing path; directory creation; ranged partial
reads; deletion), we model it as an association list from paths to typed
objects plus a device list.  A getObject result of none stands for a
raised JFSError. -/

/-- The kind of a resolved remote object (JFSDevice, JFSMountPoint,
JFSFolder, JFSFile, JFSIncompleteFile). -/
inductive JType where
  | device
  | mountPoint
  | folder
  | file
  | incompleteFile
deriving DecidableEq

/-- A child folder or file as enumerated by the client: name, size and
deleted flag. -/
structure ChildEntry where
  name : List Char
  size : Nat
  deleted : Bool
deriving DecidableEq

/-- A resolved remote object: its kind, name, size, deleted flag, byte
content (files), mount point names (devices) and enumerable children
(containers). -/
structure JObj where
  jtype : JType
  name : List Char
  size : Nat
  deleted : Bool
  content : List Nat
  mountNames : List (List Char)
  folderChildren : List ChildEntry
  fileChildren : List ChildEntry
deriving DecidableEq

/-- The client state: a path-to-object mapping and the device list. -/
structure Client where
  fsmap : List ((List Char) × JObj)
  devices : List JObj
deriving DecidableEq

/-- client.getObject: resolve a path; none models a raised JFSError. -/
def Client.getObj (c : Client) (p : List Char) : Option JObj :=
  (c.fsmap.find? (fun e => e.1 = p)).map (fun e => e.2)

/-- Insert or shadow an object at a path, modelling a remote mutation. -/
def Client.insertObj (c : Client) (p : List Char) (o : JObj) : Client :=
  { c with fsmap := (p, o) :: c.fsmap }

/-- A freshly created remote folder, as returned by the client mkdir. -/
def newFolderObj (nm : List Char) : JObj :=
  { jtype := JType.folder, name := nm, size := 0, deleted := false,
    content := [], mountNames := [], folderChildren := [], fileChildren := [] }

/-- f.readpartial(start, end) of the client: the bytes of the object
covering the half-open range from start to the given end. -/
def readpartial (f : JObj) (s e : Nat) : List Nat :=
  (f.content.drop s).take (e - s)

/-- The OSError codes raised by the gateway operations. -/
inductive OSErr where
  | ENOENT
  | EACCES
deriving DecidableEq

/-- The RequestStatus enumeration of restic-server.py. -/
inductive RequestStatus where
  | OKAY
  | FAILURE
deriving DecidableEq

/-- The HTTP status value carried by each RequestStatus member. -/
def RequestStatus.value : RequestStatus → Nat
  | RequestStatus.OKAY => 200
  | RequestStatus.FAILURE => 404

/-! ### The gateway operations of restic-server.py -/

/-- JottaRest.check_exists: resolve repo/name; a JFSError means absent;
a resolved file, folder or incomplete file that is deleted is treated as
absent. -/
def check_exists (c : Client) (repo nm : List Char) : Bool :=
  let fp := build_repo_path repo nm
  match c.getObj fp with
  | none => false
  | some f =>
    if (f.jtype = JType.file ∨ f.jtype = JType.folder ∨
        f.jtype = JType.incompleteFile) ∧ f.deleted then false
    else true

/-- The HEAD route: status 200 when check_exists holds, else 404. -/
def head_object (c : Client) (repo nm : List Char) : Nat :=
  if check_exists c repo nm then 200 else 404

/-- JottaRest.mkdir: split the path into parent and leaf, resolve the
parent (ENOENT on JFSError), require it to be a folder (EACCES
otherwise) and not deleted (ENOENT), then create the leaf under it. -/
def mkdir (c : Client) (path : List Char) : Except OSErr Client :=
  let parentfolder := dirname path
  let newfolder := basename path
  match c.getObj parentfolder with
  | none => Except.error OSErr.ENOENT
  | some f =>
    if ¬ (f.jtype = JType.folder) then Except.error OSErr.EACCES
    else if (f.jtype = JType.file ∨ f.jtype = JType.folder) ∧ f.deleted then
      Except.error OSErr.ENOENT
    else
      Except.ok (c.insertObj (posixJoin parentfolder newfolder) (newFolderObj newfolder))

/-- The five fixed repository subdirectories created by mkrepo. -/
def repoSubdirList : List (List Char) :=
  [chars "data", chars "index", chars "keys", chars "locks", chars "snapshots"]

/-- The subdirectory loop of JottaRest.mkrepo: create each subdirectory
under the repository path in turn, stopping at the first OSError and
keeping the state reached so far. -/
def mkrepoLoop (c : Client) (p : List Char) : List (List Char) → RequestStatus × Client
  | [] => (RequestStatus.OKAY, c)
  | s :: ss =>
    match mkdir c (posixJoin p s) with
    | Except.error _ => (RequestStatus.FAILURE, c)
    | Except.ok c2 => mkrepoLoop c2 p ss

/-- JottaRest.mkrepo: normalize, create the repository directory, then
the five subdirectories in sequence; any OSError yields FAILURE. -/
def mkrepo (c : Client) (path : List Char) : RequestStatus × Client :=
  let p := normalize_path path
  match mkdir c p with
  | Except.error _ => (RequestStatus.FAILURE, c)
  | Except.ok c2 => mkrepoLoop c2 p repoSubdirList

/-- JottaRest.read_data: normalize, resolve (ENOENT on JFSError or on a
deleted file or folder), clamp the end offset with Python truthiness on
the requested end (a requested end of zero is falsy, like an absent
end), and return either the partial read or the empty byte string
together with the object size.  The positivity test mirrors the Python
integer comparison, hence the cast through Int. -/
def read_data (c : Client) (path : List Char) (rng : Nat × Option Nat) :
    Except OSErr (List Nat × Nat) :=
  let p := normalize_path path
  match c.getObj p with
  | none => Except.error OSErr.ENOENT
  | some f =>
    if (f.jtype = JType.file ∨ f.jtype = JType.folder) ∧ f.deleted then
      Except.error OSErr.ENOENT
    else
      let e : Nat :=
        match rng.2 with
        | some re => if ¬ (re = 0) then min (re + 1) f.size else f.size
        | none => f.size
      if ((e : Int) - (rng.1 : Int)) > 0 then
        Except.ok ( readpartial f rng.1 e, f.size)
      else
        Except.ok ([], f.size)

/-- An item yielded by the readdir generator: the root branch yields bare
device names, the other branches yield name-size pairs. -/
inductive RDItem where
  | bare (name : List Char)
  | pair (name : List Char) (size : Nat)
deriving DecidableEq

/-- JottaRest.readdir: at the root, yield each device name (a bare
string); otherwise resolve the path (none models the uncaught JFSError),
and yield mount point names with size zero for a device, else the name
and size of each non-deleted child folder and child file. -/
def readdir (c : Client) (path : List Char) : Option (List RDItem) :=
  if path = chars "/" then
    some (c.devices.map (fun d => RDItem.bare d.name))
  else
    match c.getObj path with
    | none => none
    | some p =>
      if p.jtype = JType.device then
        some (p.mountNames.map (fun n => RDItem.pair n 0))
      else
        some (((p.folderChildren ++ p.fileChildren).filter
                 (fun el => ¬ el.deleted)).map
               (fun el => RDItem.pair el.name el.size))

/-- A Python value appearing in the size position of a listing entry:
a number from the pair branch, or a one-character string produced by
tuple-unpacking a bare two-character name. -/
inductive SVal where
  | num (n : Nat)
  | txt (s : List Char)
deriving DecidableEq

/-- A JSON entry produced by ls_dir: an object with name and size under
protocol version 2, a bare name string otherwise. -/
inductive LsEntry where
  | str (s : List Char)
  | obj (name : List Char) (size : SVal)
deriving DecidableEq

/-- Tuple-unpacking of one readdir item, as done by the comprehensions
in ls_dir: a pair unpacks to its parts; a bare string unpacks only when
it has exactly two characters, each becoming a one-character string; any
other bare string raises ValueError, modelled as none. -/
def unpackItem : RDItem → Option ((List Char) × SVal)
  | RDItem.pair k s => some (k, SVal.num s)
  | RDItem.bare k =>
    match k with
    | [a, b] => some ([a], SVal.txt [b])
    | _ => none

/-- JottaRest.ls_dir: normalize, run readdir, unpack every yielded item,
and shape the entries by protocol version; none models an uncaught
exception. -/
def ls_dir (c : Client) (path : List Char) (api : Nat) : Option (List LsEntry) :=
  let p := normalize_path path
  (readdir c p).bind (fun items =>
    (items.mapM unpackItem).map (fun pairs =>
      if api = 2 then pairs.map (fun kv => LsEntry.obj kv.1 kv.2)
      else pairs.map (fun kv => LsEntry.str kv.1)))

/-- f.delete() of the client: mark the object at a path deleted. -/
def deleteAt (c : Client) (p : List Char) (f : JObj) : Client :=
  c.insertObj p { f with deleted := true }

/-- JottaRest.remove: normalize, resolve (FAILURE on JFSError), else
delete the object and return OKAY; the operation is total. -/
def remove (c : Client) (path : List Char) : RequestStatus × Client :=
  let p := normalize_path path
  match c.getObj p with
  | none => (RequestStatus.FAILURE, c)
  | some f => (RequestStatus.OKAY, deleteAt c p f)

/-- api_version_from_header: default to version 1; when an Accept header
is present, take the integer value of its final character; none models
the uncaught ValueError raised by int on a non-digit. -/
def api_version_from_header (accept : Option (List Char)) : Option Nat :=
  match accept with
  | none => some 1
  | some a =>
    match a.getLast? with
    | none => none
    | some ch => if ch.isDigit then some (ch.toNat - 48) else none

/-! ### Embedding of the Qt tree model (src/jottalib/qt.py)

The remote object graph consumed by the tree model is embedded as an
inductive tree: devices own named mount points, mount points and folders
enumerate child folders and child files, files and incomplete files are
leaves. -/

/-- A remote object as seen by the Qt model. -/
inductive JFSObj where
  | device (name : List Char) (mountPoints : List ((List Char) × JFSObj))
  | mountPoint (name : List Char) (folderKids : List JFSObj) (fileKids : List JFSObj)
  | folder (name : List Char) (deleted : Bool)
      (folderKids : List JFSObj) (fileKids : List JFSObj)
  | file (name : List Char) (size : Nat) (deleted : Bool)
  | incompleteFile (name : List Char) (size : Nat) (deleted : Bool)

/-- obj.folders() of the client library: the child folders of a mount
point or folder, empty on every other kind. -/
def JFSObj.folders : JFSObj → List JFSObj
  | JFSObj.mountPoint _ fk _ => fk
  | JFSObj.folder _ _ fk _ => fk
  | _ => []

/-- obj.files() of the client library: the child files of a mount point
or folder, empty on every other kind. -/
def JFSObj.files : JFSObj → List JFSObj
  | JFSObj.mountPoint _ _ fl => fl
  | JFSObj.folder _ _ _ fl => fl
  | _ => []

/-- A tree node of the Qt model: one of the three JFSNode subclasses,
each wrapping a remote object and carrying its ordered child nodes. -/
inductive JNode where
  | fileNode (obj : JFSObj) (childNodes : List JNode)
  | folderNode (obj : JFSObj) (childNodes : List JNode)
  | deviceNode (obj : JFSObj) (childNodes : List JNode)

/-- The childNodes list of a node. -/
def JNode.children : JNode → List JNode
  | JNode.fileNode _ ch => ch
  | JNode.folderNode _ ch => ch
  | JNode.deviceNode _ ch => ch

/-- appendRow: attach one child at the end of the child list. -/
def JNode.appendRow : JNode → JNode → JNode
  | JNode.fileNode o ch, c => JNode.fileNode o (ch ++ [c])
  | JNode.folderNode o ch, c => JNode.folderNode o (ch ++ [c])
  | JNode.deviceNode o ch, c => JNode.deviceNode o (ch ++ [c])

/-- JFSFolderNode.pullChildren: append a folder node for each child
folder, then a file node for each child file; the base-class
pullChildren of the other variants is a no-op. -/
def JNode.pullChildren : JNode → JNode
  | JNode.folderNode o ch =>
    let n1 := (JFSObj.folders o).foldl
      (fun acc k => acc.appendRow (JNode.folderNode k [])) (JNode.folderNode o ch)
    (JFSObj.files o).foldl (fun acc k => acc.appendRow (JNode.fileNode k [])) n1
  | n => n

/-- JFSDeviceNode construction: a device node starts with one folder
node per mount point value, eagerly built. -/
def JFSDeviceNode.make (obj : JFSObj) : JNode :=
  match obj with
  | JFSObj.device _ mps =>
    JNode.deviceNode obj (mps.map (fun pr => JNode.folderNode pr.2 []))
  | _ => JNode.deviceNode obj []

/-- JFSModel.hasChildren: the item resolved from an index (none when the
index resolves to no item) is declared childless exactly when it is a
file node. -/
def JFSModel.hasChildren : Option JNode → Bool
  | some (JNode.fileNode _ _) => false
  | _ => true

/-- The error raised by JFSModel construction when the type dispatch
falls through every isinstance branch: the rootObject attribute was
never assigned, so seeding the invisible root raises AttributeError. -/
inductive ModelError where
  | attributeError
deriving DecidableEq

/-- JFSModel construction after root resolution: select the node variant
by the resolved object kind (device, mount point or folder, file), then
seed the invisible root with the child nodes of the selected node; any
other kind reaches the seeding line with no root node assigned. -/
def initModel (rawObj : JFSObj) : Except ModelError (JNode × List JNode) :=
  match rawObj with
  | JFSObj.device _ _ =>
    let ro := JFSDeviceNode.make rawObj
    Except.ok (ro, ro.children)
  | JFSObj.mountPoint _ _ _ =>
    let ro := JNode.folderNode rawObj []
    Except.ok (ro, ro.children)
  | JFSObj.folder _ _ _ _ =>
    let ro := JNode.folderNode rawObj []
    Except.ok (ro, ro.children)
  | JFSObj.file _ _ _ =>
    let ro := JNode.fileNode rawObj []
    Except.ok (ro, ro.children)
  | JFSObj.incompleteFile _ _ _ => Except.error ModelError.attributeError


/-! ### Remaining definitions: decidability, spec-side formulations and
concrete states used by witnesses and counterexamples -/

/-- Decidable equality for Except results. -/
instance exceptDecEq {ε α : Type} [DecidableEq ε] [DecidableEq α] :
    DecidableEq (Except ε α) := fun x y =>
  match x, y with
  | Except.ok a, Except.ok b =>
    if h : a = b then isTrue (by rw [h])
    else isFalse (by intro hh; cases hh; exact h rfl)
  | Except.error a, Except.error b =>
    if h : a = b then isTrue (by rw [h])
    else isFalse (by intro hh; cases hh; exact h rfl)
  | Except.ok _, Except.error _ => isFalse (by intro hh; cases hh)
  | Except.error _, Except.ok _ => isFalse (by intro hh; cases hh)

/-- Spec-side directory-creation sequence: run mkdir on each path in
turn, stopping with FAILURE at the first error and keeping the state
reached so far. -/
def runMkdirs (c : Client) : List (List Char) → RequestStatus × Client
  | [] => (RequestStatus.OKAY, c)
  | p :: ps =>
    match mkdir c p with
    | Except.error _ => (RequestStatus.FAILURE, c)
    | Except.ok c2 => runMkdirs c2 ps

/-- Spec-side successful-sequence runner: the state after creating every
listed directory, none when any creation fails. -/
def runSeq (c : Client) : List (List Char) → Option Client
  | [] => some c
  | p :: ps =>
    match mkdir c p with
    | Except.error _ => none
    | Except.ok c2 => runSeq c2 ps

/-- The six directories created by repository initialization, in
creation order. -/
def repoPaths (p : List Char) : List (List Char) :=
  p :: repoSubdirList.map (posixJoin p)

/-- A normalized path component: nonempty, not a dot segment, and free
of slashes. -/
def GoodComp (w : List Char) : Prop :=
  w ≠ [] ∧ w ≠ ['.'] ∧ w ≠ ['.', '.'] ∧ '/' ∉ w

/-- A five-byte remote file used by concrete evaluations. -/
def fileObjF : JObj :=
  { jtype := JType.file, name := chars "f", size := 5, deleted := false,
    content := [10, 11, 12, 13, 14], mountNames := [],
    folderChildren := [], fileChildren := [] }

/-- A deleted incomplete file used by concrete evaluations. -/
def incObjG : JObj :=
  { jtype := JType.incompleteFile, name := chars "g", size := 3, deleted := true,
    content := [1, 2, 3], mountNames := [], folderChildren := [], fileChildren := [] }

/-- Client state holding the two objects above. -/
def clientC1 : Client :=
  { fsmap := [(chars "/f", fileObjF), (chars "/g", incObjG)], devices := [] }

/-- A remote folder with one five-byte child file entry. -/
def folderObjR : JObj :=
  { jtype := JType.folder, name := chars "r", size := 0, deleted := false,
    content := [], mountNames := [],
    folderChildren := [], fileChildren := [ChildEntry.mk (chars "a") 5 false] }

/-- Client state holding the folder above. -/
def clientC2 : Client :=
  { fsmap := [(chars "/r", folderObjR)], devices := [] }

/-- A device with a five-character name. -/
def devJotta : JObj :=
  { jtype := JType.device, name := chars "Jotta", size := 0, deleted := false,
    content := [], mountNames := [chars "backup"],
    folderChildren := [], fileChildren := [] }

/-- Client state holding one device and no path entries. -/
def clientC3 : Client :=
  { fsmap := [], devices := [devJotta] }

/-- A non-deleted root folder object. -/
def rootFolderObj : JObj :=
  { jtype := JType.folder, name := chars "", size := 0, deleted := false,
    content := [], mountNames := [], folderChildren := [], fileChildren := [] }

/-- Client state with only the root folder present. -/
def cliRoot : Client :=
  { fsmap := [(chars "/", rootFolderObj)], devices := [] }

/-- The client state reached after initializing a repository at /r over
cliRoot: the six created folders shadow-prepended in creation order. -/
def cliRootAfter : Client :=
  { fsmap :=
      [(chars "/r/snapshots", newFolderObj (chars "snapshots")),
       (chars "/r/locks", newFolderObj (chars "locks")),
       (chars "/r/keys", newFolderObj (chars "keys")),
       (chars "/r/index", newFolderObj (chars "index")),
       (chars "/r/data", newFolderObj (chars "data")),
       (chars "/r", newFolderObj (chars "r")),
       (chars "/", rootFolderObj)],
    devices := [] }

/-! ### Claims about the Qt tree model -/

/-- Helper: folding appendRow over a list of objects appends the mapped
nodes, in order, at the end of the child list of a folder node. -/
theorem foldl_appendRow_folder (f : JFSObj → JNode) (l : List JFSObj) :
    ∀ (o : JFSObj) (ch : List JNode),
      l.foldl (fun acc k => acc.appendRow (f k)) (JNode.folderNode o ch) =
        JNode.folderNode o (ch ++ l.map f) := by
  induction l with
  | nil => intro o ch; simp
  | cons x xs ih =>
    intro o ch
    have hstep : (JNode.folderNode o ch).appendRow (f x) =
        JNode.folderNode o (ch ++ [f x]) := rfl
    simp only [List.foldl_cons, List.map_cons, hstep, ih]
    simp

/-- Claim C9: populating a folder node appends all child folders, in
client enumeration order, before any child files, in client enumeration
order, each wrapped as a child node of the matching subtype. -/
theorem pullChildren_spec (o : JFSObj) (ch : List JNode) :
    (JNode.folderNode o ch).pullChildren =
      JNode.folderNode o
        (ch ++ (JFSObj.folders o).map (fun k => JNode.folderNode k [])
            ++ (JFSObj.files o).map (fun k => JNode.fileNode k [])) := by
  show ((JFSObj.files o).foldl (fun acc k => acc.appendRow (JNode.fileNode k []))
        ((JFSObj.folders o).foldl (fun acc k => acc.appendRow (JNode.folderNode k []))
          (JNode.folderNode o ch))) = _
  rw [foldl_appendRow_folder, foldl_appendRow_folder]

/-- Claim C8: the model hasChildren query answers false exactly on file
nodes and true on everything else, in particular on a folder node with
an empty, not-yet-populated child list. -/
theorem hasChildren_spec :
    (∀ it : Option JNode, JFSModel.hasChildren it = false ↔
       ∃ o ch, it = some (JNode.fileNode o ch)) ∧
    (∀ o : JFSObj, JFSModel.hasChildren (some (JNode.folderNode o [])) = true) := by
  constructor
  · intro it
    constructor
    · intro h
      match it with
      | none => simp [JFSModel.hasChildren] at h
      | some (JNode.fileNode o ch) => exact ⟨o, ch, rfl⟩
      | some (JNode.folderNode o ch) => simp [JFSModel.hasChildren] at h
      | some (JNode.deviceNode o ch) => simp [JFSModel.hasChildren] at h
    · rintro ⟨o, ch, rfl⟩
      rfl
  · intro o
    rfl

/-- Claim C10: model construction succeeds exactly when the resolved
root object is a device, mount point, folder or file; on any other kind
(an incomplete file) the type dispatch falls through and seeding the
invisible root raises. -/
theorem initModel_spec :
    (∀ o : JFSObj, (∃ st, initModel o = Except.ok st) ↔
       ((∃ n m, o = JFSObj.device n m) ∨
        (∃ n a b, o = JFSObj.mountPoint n a b) ∨
        (∃ n d a b, o = JFSObj.folder n d a b) ∨
        (∃ n s d, o = JFSObj.file n s d))) ∧
    (∀ (nm : List Char) (sz : Nat) (dl : Bool),
       initModel (JFSObj.incompleteFile nm sz dl) =
         Except.error ModelError.attributeError) := by
  constructor
  · intro o
    cases o with
    | device n m =>
      simp only [initModel]
      exact ⟨fun _ => Or.inl ⟨n, m, rfl⟩, fun _ => ⟨_, rfl⟩⟩
    | mountPoint n a b =>
      simp only [initModel]
      exact ⟨fun _ => Or.inr (Or.inl ⟨n, a, b, rfl⟩), fun _ => ⟨_, rfl⟩⟩
    | folder n d a b =>
      simp only [initModel]
      exact ⟨fun _ => Or.inr (Or.inr (Or.inl ⟨n, d, a, b, rfl⟩)), fun _ => ⟨_, rfl⟩⟩
    | file n s d =>
      simp only [initModel]
      exact ⟨fun _ => Or.inr (Or.inr (Or.inr ⟨n, s, d, rfl⟩)), fun _ => ⟨_, rfl⟩⟩
    | incompleteFile n s d =>
      simp only [initModel]
      constructor
      · rintro ⟨st, hst⟩
        cases hst
      · rintro (⟨n2, m2, h⟩ | ⟨n2, a2, b2, h⟩ | ⟨n2, d2, a2, b2, h⟩ | ⟨n2, s2, d2, h⟩) <;>
          cases h
  · intro nm sz dl
    rfl

/-! ### Claims about existence check, HEAD and remove -/

/-- Claim C7: check_exists is false exactly when resolution of the
composed repository path fails or the resolved object is a deleted file,
folder or incomplete file; the HEAD route answers 200 exactly on true
and 404 exactly on false. -/
theorem check_exists_spec (c : Client) (repo nm : List Char) :
    (check_exists c repo nm = false ↔
      (c.getObj (build_repo_path repo nm) = none ∨
       ∃ f, c.getObj (build_repo_path repo nm) = some f ∧
         (f.jtype = JType.file ∨ f.jtype = JType.folder ∨
          f.jtype = JType.incompleteFile) ∧ f.deleted = true)) ∧
    (head_object c repo nm = 200 ↔ check_exists c repo nm = true) ∧
    (head_object c repo nm = 404 ↔ check_exists c repo nm = false) := by
  have hun : check_exists c repo nm =
      (match c.getObj (build_repo_path repo nm) with
       | none => false
       | some f =>
         if (f.jtype = JType.file ∨ f.jtype = JType.folder ∨
             f.jtype = JType.incompleteFile) ∧ f.deleted = true then false
         else true) := rfl
  refine ⟨?_, ?_, ?_⟩
  · rw [hun]
    cases h : c.getObj (build_repo_path repo nm) with
    | none => simp
    | some f =>
      by_cases hc : (f.jtype = JType.file ∨ f.jtype = JType.folder ∨
          f.jtype = JType.incompleteFile) ∧ f.deleted = true
      · simp only [if_pos hc]
        refine ⟨fun _ => Or.inr ⟨f, rfl, hc⟩, fun _ => trivial⟩
      · simp only [if_neg hc]
        constructor
        · intro hh
          cases hh
        · rintro (hnone | ⟨f2, hf2, hf2b⟩)
          · cases hnone
          · cases hf2
            exact absurd hf2b hc
  · unfold head_object
    cases hce : check_exists c repo nm <;> simp [hce]
  · unfold head_object
    cases hce : check_exists c repo nm <;> simp [hce]

/-- Claim C6: remove normalizes and resolves the path; it answers
FAILURE exactly when resolution fails, and otherwise deletes the
resolved object and answers OKAY.  Being a total function of the client
state, it raises nothing. -/
theorem remove_spec (c : Client) (path : List Char) :
    ((remove c path).1 = RequestStatus.FAILURE ↔
       c.getObj (normalize_path path) = none) ∧
    (∀ f, c.getObj (normalize_path path) = some f →
       remove c path = (RequestStatus.OKAY, deleteAt c (normalize_path path) f)) := by
  have hun : remove c path =
      (match c.getObj (normalize_path path) with
       | none => (RequestStatus.FAILURE, c)
       | some f => (RequestStatus.OKAY, deleteAt c (normalize_path path) f)) := rfl
  rw [hun]
  cases h : c.getObj (normalize_path path) with
  | none => simp
  | some f =>
    constructor
    · simp
    · intro f2 hf2
      cases hf2
      rfl

/-! ### Claim C1: ranged read -/

/-- Claim C1 counterexample: for the five-byte file at /f, a requested
end offset of zero does not follow the clamped formula (which would give
the single first byte) but behaves like an absent end and returns the
whole content; and the deleted incomplete file at /g is not reported as
NotFound by read_data. -/
theorem read_data_claim_cex :
    read_data clientC1 (chars "/f") (0, some 0) =
      Except.ok ([10, 11, 12, 13, 14], 5) ∧
    ¬ read_data clientC1 (chars "/f") (0, some 0) = Except.ok ([10], 5) ∧
    ¬ read_data clientC1 (chars "/g") (0, none) = Except.error OSErr.ENOENT := by
  decide

/-- Claim C1 as amended: read_data fails with NotFound when the object
is missing or is a deleted file or folder; otherwise the end offset is
clamped to min of requestedEnd plus one and the size when a nonzero end
is given, and is the full size when the end is absent or zero; the
result is the empty content with the total size when the clamped span is
empty, else the partial bytes of the span with the total size; a start
offset at or past the size always yields empty content. -/
theorem read_data_spec :
    (∀ (c : Client) (path : List Char) (rng : Nat × Option Nat),
       c.getObj (normalize_path path) = none →
       read_data c path rng = Except.error OSErr.ENOENT) ∧
    (∀ (c : Client) (path : List Char) (rng : Nat × Option Nat) (f : JObj),
       c.getObj (normalize_path path) = some f →
       (f.jtype = JType.file ∨ f.jtype = JType.folder) → f.deleted = true →
       read_data c path rng = Except.error OSErr.ENOENT) ∧
    (∀ (c : Client) (path : List Char) (rng : Nat × Option Nat) (f : JObj),
       c.getObj (normalize_path path) = some f →
       ¬ ((f.jtype = JType.file ∨ f.jtype = JType.folder) ∧ f.deleted = true) →
       ∀ e : Nat,
         e = (match rng.2 with
              | some re => if re = 0 then f.size else min (re + 1) f.size
              | none => f.size) →
         (e ≤ rng.1 → read_data c path rng = Except.ok ([], f.size)) ∧
         (rng.1 < e →
            read_data c path rng = Except.ok ( readpartial f rng.1 e, f.size)) ∧
         (f.size ≤ rng.1 → read_data c path rng = Except.ok ([], f.size))) := by
  refine ⟨?_, ?_, ?_⟩
  · intro c path rng h
    simp only [read_data]
    rw [h]
  · intro c path rng f h hjt hdel
    simp only [read_data]
    rw [h]
    simp only [if_pos (And.intro hjt hdel)]
  · intro c path rng f h hnc e he
    simp only [read_data]
    rw [h]
    simp only [if_neg hnc]
    have hee : (match rng.2 with
        | some re => if ¬ (re = 0) then min (re + 1) f.size else f.size
        | none => f.size) = e := by
      rw [he]
      cases rng.2 with
      | none => rfl
      | some re =>
        by_cases hre : re = 0
        · simp [hre]
        · simp [hre]
    rw [hee]
    have hesz : e ≤ f.size := by
      rw [he]
      cases rng.2 with
      | none => exact Nat.le_refl _
      | some re =>
        by_cases hre : re = 0
        · simp [hre]
        · simp only [if_neg hre]
          exact Nat.min_le_right _ _
    refine ⟨?_, ?_, ?_⟩
    · intro hle
      rw [if_neg (by omega)]
    · intro hlt
      rw [if_pos (by omega)]
    · intro hsz
      rw [if_neg (by omega)]

/-- Witness for the amended claim C1: a concrete in-range partial read
on the five-byte file. -/
theorem read_data_spec_witness :
    read_data clientC1 (chars "/f") (1, some 2) = Except.ok ([11, 12], 5) := by
  have h := (read_data_spec.2.2 clientC1 (chars "/f") (1, some 2) fileObjF
      (by decide) (by decide) 3 (by decide)).2.1 (by decide)
  have h2 : readpartial fileObjF 1 3 = [11, 12] := by decide
  rw [h2] at h
  exact h

/-! ### Claims C2 and C3: listing protocol and root listing -/

/-- Claim C2 counterexample: with no Accept header the negotiated
protocol version is 1, not 2. -/
theorem api_default_cex :
    api_version_from_header none = some 1 ∧
    ¬ api_version_from_header none = some 2 := by
  decide

/-- Claim C2 as amended: when an Accept header ending in a digit is
present, the protocol version is that trailing digit; version 1 (not 2)
is the default with no Accept header; every entry of a successful
version-2 listing is a name-size object and every entry of a version-1
listing is a bare name string. -/
theorem api_version_spec :
    (∀ (a : List Char) (d : Char), a.getLast? = some d → d.isDigit = true →
       api_version_from_header (some a) = some (d.toNat - 48)) ∧
    api_version_from_header none = some 1 ∧
    (∀ (c : Client) (path : List Char) (entries : List LsEntry),
       ls_dir c path 2 = some entries →
       ∀ ent ∈ entries, ∃ n s, ent = LsEntry.obj n s) ∧
    (∀ (c : Client) (path : List Char) (entries : List LsEntry),
       ls_dir c path 1 = some entries →
       ∀ ent ∈ entries, ∃ n, ent = LsEntry.str n) := by
  refine ⟨?_, rfl, ?_, ?_⟩
  · intro a d hlast hdig
    simp only [api_version_from_header]
    rw [hlast]
    simp [hdig]
  · intro c path entries hls ent hent
    simp only [ls_dir] at hls
    rcases Option.bind_eq_some.mp hls with ⟨items, hitems, hmap⟩
    rcases Option.map_eq_some'.mp hmap with ⟨pairs, hpairs, hshape⟩
    simp only [if_true] at hshape
    rw [← hshape] at hent
    rcases List.mem_map.mp hent with ⟨kv, _, hkv⟩
    exact ⟨kv.1, kv.2, hkv.symm⟩
  · intro c path entries hls ent hent
    simp only [ls_dir] at hls
    rcases Option.bind_eq_some.mp hls with ⟨items, hitems, hmap⟩
    rcases Option.map_eq_some'.mp hmap with ⟨pairs, hpairs, hshape⟩
    rw [← hshape] at hent
    rcases List.mem_map.mp hent with ⟨kv, _, hkv⟩
    exact ⟨kv.1, hkv.symm⟩

/-- Witness for the amended claim C2: the version-2 vendor media type
negotiates version 2, and a successful concrete version-2 listing is
made of name-size objects. -/
theorem api_version_spec_witness :
    api_version_from_header (some (chars "application/vnd.x.restic.rest.v2")) =
      some 2 ∧
    (∀ ent ∈ [LsEntry.obj (chars "a") (SVal.num 5)], ∃ n s, ent = LsEntry.obj n s) := by
  constructor
  · exact api_version_spec.1 (chars "application/vnd.x.restic.rest.v2") '2'
      (by decide) (by decide)
  · intro ent hent
    exact api_version_spec.2.2.1 clientC2 (chars "/r")
      [LsEntry.obj (chars "a") (SVal.num 5)] (by decide) ent hent

/-- Claim C3 evaluation at the failing input: at the root path the
listing generator yields the bare five-character device name instead of
a name-size pair, and the consuming ls_dir comprehension consequently
fails (tuple unpacking of a five-character string) for both protocol
versions, instead of producing an entry carrying the device name with
size zero. -/
theorem readdir_root_eval :
    readdir clientC3 (chars "/") = some [RDItem.bare (chars "Jotta")] ∧
    ls_dir clientC3 (chars "/") 2 = none ∧
    ls_dir clientC3 (chars "/") 1 = none := by
  decide

/-! ### Claim C5: repository initialization -/

/-- Helper: the subdirectory loop of mkrepo is the generic creation
sequence over the joined subdirectory paths. -/
theorem mkrepoLoop_eq (p : List Char) :
    ∀ (ss : List (List Char)) (c : Client),
      mkrepoLoop c p ss = runMkdirs c (ss.map (posixJoin p)) := by
  intro ss
  induction ss with
  | nil => intro c; rfl
  | cons s rest ih =>
    intro c
    cases h : mkdir c (posixJoin p s) with
    | error e => simp only [mkrepoLoop, runMkdirs, List.map_cons, h]
    | ok c2 =>
      simp only [mkrepoLoop, runMkdirs, List.map_cons, h]
      exact ih c2

/-- Helper: the creation sequence answers OKAY exactly when every
creation in it succeeds. -/
theorem runMkdirs_okay_iff :
    ∀ (l : List (List Char)) (c : Client),
      (runMkdirs c l).1 = RequestStatus.OKAY ↔ ∃ c2, runSeq c l = some c2 := by
  intro l
  induction l with
  | nil => intro c; simp [runMkdirs, runSeq]
  | cons p ps ih =>
    intro c
    cases h : mkdir c p with
    | error e => simp [runMkdirs, runSeq, h]
    | ok c2 =>
      simp only [runMkdirs, runSeq, h]
      exact ih c2

/-- Helper: a fully successful creation sequence returns OKAY together
with the state holding every created directory. -/
theorem runSeq_runMkdirs :
    ∀ (l : List (List Char)) (c c2 : Client),
      runSeq c l = some c2 → runMkdirs c l = (RequestStatus.OKAY, c2) := by
  intro l
  induction l with
  | nil =>
    intro c c2 h
    simp only [runSeq, Option.some.injEq] at h
    rw [runMkdirs, h]
  | cons p ps ih =>
    intro c c2 h
    cases hm : mkdir c p with
    | error e =>
      simp only [runSeq, hm] at h
      cases h
    | ok c3 =>
      simp only [runSeq, hm] at h
      simp only [runMkdirs, hm]
      exact ih c3 c2 h

/-- Helper: a FAILURE answer decomposes the sequence into a successful
prefix, whose creations all remain in the returned state, and a first
failing creation that aborts the rest. -/
theorem runMkdirs_failure :
    ∀ (l : List (List Char)) (c : Client),
      (runMkdirs c l).1 = RequestStatus.FAILURE →
      ∃ pre q rest c2 e, l = pre ++ q :: rest ∧ runSeq c pre = some c2 ∧
        mkdir c2 q = Except.error e ∧ (runMkdirs c l).2 = c2 := by
  intro l
  induction l with
  | nil =>
    intro c h
    simp [runMkdirs] at h
  | cons p ps ih =>
    intro c h
    cases hm : mkdir c p with
    | error e =>
      refine ⟨[], p, ps, c, e, rfl, rfl, hm, ?_⟩
      simp [runMkdirs, hm]
    | ok c3 =>
      simp only [runMkdirs, hm] at h ⊢
      rcases ih c3 h with ⟨pre, q, rest, c2, e, hsplit, hseq, hmk, hsnd⟩
      refine ⟨p :: pre, q, rest, c2, e, by rw [hsplit, List.cons_append], ?_, hmk, hsnd⟩
      simp only [runSeq, hm]
      exact hseq

/-- Claim C5: mkrepo normalizes the path and runs exactly the six
directory creations (the path itself, then data, index, keys, locks,
snapshots) in sequence; it answers OKAY exactly when all six succeed,
and any failure aborts the remaining sequence while keeping every
directory already created in the resulting state. -/
theorem mkrepo_spec :
    (∀ (c : Client) (path : List Char),
       mkrepo c path = runMkdirs c (repoPaths (normalize_path path))) ∧
    (∀ (c : Client) (l : List (List Char)),
       ((runMkdirs c l).1 = RequestStatus.OKAY ↔ ∃ c2, runSeq c l = some c2) ∧
       (∀ c2, runSeq c l = some c2 → runMkdirs c l = (RequestStatus.OKAY, c2)) ∧
       ((runMkdirs c l).1 = RequestStatus.FAILURE →
          ∃ pre q rest c2 e, l = pre ++ q :: rest ∧ runSeq c pre = some c2 ∧
            mkdir c2 q = Except.error e ∧ (runMkdirs c l).2 = c2)) := by
  constructor
  · intro c path
    simp only [mkrepo, repoPaths]
    cases hm : mkdir c (normalize_path path) with
    | error e => simp only [runMkdirs, hm]
    | ok c2 =>
      simp only [runMkdirs, hm]
      exact mkrepoLoop_eq (normalize_path path) repoSubdirList c2
  · intro c l
    exact ⟨runMkdirs_okay_iff l c, fun c2 => runSeq_runMkdirs l c c2,
           runMkdirs_failure l c⟩

/-- Witness for claim C5: over a state holding only the root folder,
initializing a repository at /r succeeds and produces exactly the six
created folders. -/
theorem mkrepo_spec_witness :
    runMkdirs cliRoot (repoPaths (chars "/r")) =
      (RequestStatus.OKAY, cliRootAfter) := by
  exact (mkrepo_spec.2 cliRoot (repoPaths (chars "/r"))).2.1 cliRootAfter (by decide)

/-! ### Claim C4: idempotence of path normalization -/

/-- Helper: splitting never yields the empty list of components. -/
theorem splitSlash_ne_nil (p : List Char) : splitSlash p ≠ [] := by
  induction p with
  | nil => simp [splitSlash]
  | cons c cs ih =>
    simp only [splitSlash]
    split
    · simp
    · cases h : splitSlash cs with
      | nil => simp
      | cons w ws => simp

/-- Helper: every component produced by splitting is slash-free. -/
theorem splitSlash_no_slash :
    ∀ (p : List Char), ∀ w ∈ splitSlash p, '/' ∉ w := by
  intro p
  induction p with
  | nil =>
    intro w hw
    simp only [splitSlash, List.mem_singleton] at hw
    subst hw
    simp
  | cons c cs ih =>
    intro w hw
    by_cases hc : c = '/'
    · subst hc
      simp only [splitSlash, if_true] at hw
      rcases List.mem_cons.mp hw with rfl | hw2
      · simp
      · exact ih w hw2
    · simp only [splitSlash, if_neg hc] at hw
      cases h : splitSlash cs with
      | nil => exact absurd h (splitSlash_ne_nil cs)
      | cons w0 ws =>
        simp only [h] at hw
        rcases List.mem_cons.mp hw with rfl | hw2
        · intro hmem
          rcases List.mem_cons.mp hmem with hh | hh
          · exact hc hh.symm
          · have hw0 : w0 ∈ splitSlash cs := by rw [h]; exact List.mem_cons_self _ _
            exact ih w0 hw0 hh
        · have hval : w ∈ splitSlash cs := by
            rw [h]
            exact List.mem_cons_of_mem _ hw2
          exact ih w hval

/-- Helper: a slash-free string splits into itself alone. -/
theorem splitSlash_slashFree (a : List Char) (h : '/' ∉ a) : splitSlash a = [a] := by
  induction a with
  | nil => rfl
  | cons c cs ih =>
    have hc : ¬ c = '/' := by
      intro e
      exact h (by rw [e]; exact List.mem_cons_self _ _)
    have hcs : '/' ∉ cs := fun m => h (List.mem_cons_of_mem _ m)
    simp only [splitSlash, if_neg hc, ih hcs]

/-- Helper: splitting distributes over a slash-free head followed by a
slash. -/
theorem splitSlash_append (a rest : List Char) (h : '/' ∉ a) :
    splitSlash (a ++ '/' :: rest) = a :: splitSlash rest := by
  induction a with
  | nil => simp [splitSlash]
  | cons c cs ih =>
    have hc : ¬ c = '/' := by
      intro e
      exact h (by rw [e]; exact List.mem_cons_self _ _)
    have hcs : '/' ∉ cs := fun m => h (List.mem_cons_of_mem _ m)
    simp only [List.cons_append, splitSlash, List.append_eq, if_neg hc, ih hcs]

/-- Helper: splitting a run of slashes prepended to a string yields that
many empty components in front. -/
theorem splitSlash_replicate (k : Nat) (rest : List Char) :
    splitSlash (List.replicate k '/' ++ rest) =
      List.replicate k [] ++ splitSlash rest := by
  induction k with
  | zero => simp
  | succ n ih =>
    simp only [List.replicate_succ, List.cons_append, splitSlash,
      List.append_eq, if_true, ih]

/-- Helper: joining a list of at least two components peels one slash. -/
theorem joinComps_cons2 (w w2 : List Char) (ws : List (List Char)) :
    joinComps (w :: w2 :: ws) = w ++ '/' :: joinComps (w2 :: ws) := rfl

/-- Helper: splitting is a left inverse of joining on nonempty lists of
slash-free components. -/
theorem splitSlash_join (comps : List (List Char)) (hne : comps ≠ [])
    (hsf : ∀ w ∈ comps, '/' ∉ w) :
    splitSlash (joinComps comps) = comps := by
  induction comps with
  | nil => cases hne rfl
  | cons w ws ih =>
    cases ws with
    | nil =>
      have hw : '/' ∉ w := hsf w (List.mem_cons_self _ _)
      simp only [joinComps, splitSlash_slashFree w hw]
    | cons w2 ws2 =>
      rw [joinComps_cons2, splitSlash_append _ _ (hsf w (List.mem_cons_self _ _))]
      rw [ih (by simp) (fun x hx => hsf x (List.mem_cons_of_mem _ hx))]

/-- Helper: equation for the processing loop on the empty input. -/
theorem newComps_nil (k : Nat) (acc : List (List Char)) :
    newComps k acc [] = acc.reverse := rfl

/-- Helper: the processing loop skips empty and single-dot components. -/
theorem newComps_skip (k : Nat) (acc : List (List Char)) (comp : List Char)
    (rest : List (List Char)) (h : comp = [] ∨ comp = ['.']) :
    newComps k acc (comp :: rest) = newComps k acc rest := by
  simp only [newComps, if_pos h]

/-- Helper: the processing loop keeps an ordinary component. -/
theorem newComps_push (k : Nat) (acc : List (List Char)) (comp : List Char)
    (rest : List (List Char)) (h1 : ¬ (comp = [] ∨ comp = ['.']))
    (h2 : comp ≠ ['.', '.'] ∨ (k = 0 ∧ acc = []) ∨
          (acc ≠ [] ∧ acc.head? = some ['.', '.'])) :
    newComps k acc (comp :: rest) = newComps k (comp :: acc) rest := by
  simp only [newComps, if_neg h1, if_pos h2]

/-- Helper: the processing loop skips leading empty components. -/
theorem newComps_skip_repl (k : Nat) (acc : List (List Char)) (m : Nat)
    (l : List (List Char)) :
    newComps k acc (List.replicate m [] ++ l) = newComps k acc l := by
  induction m with
  | zero => simp
  | succ n ih =>
    rw [List.replicate_succ, List.cons_append,
      newComps_skip k acc [] _ (Or.inl rfl), ih]

/-- Helper: with a nonzero slash count, the processing loop only ever
holds and produces normalized slash-free components. -/
theorem newComps_good (k : Nat) (hk : k ≠ 0) :
    ∀ (l acc : List (List Char)),
      (∀ w ∈ acc, GoodComp w) → (∀ w ∈ l, '/' ∉ w) →
      ∀ w ∈ newComps k acc l, GoodComp w := by
  intro l
  induction l with
  | nil =>
    intro acc hacc _ w hw
    rw [newComps_nil] at hw
    exact hacc w (List.mem_reverse.mp hw)
  | cons comp rest ih =>
    intro acc hacc hl w hw
    have hlrest : ∀ x ∈ rest, '/' ∉ x := fun x hx => hl x (List.mem_cons_of_mem _ hx)
    by_cases h1 : comp = [] ∨ comp = ['.']
    · rw [newComps_skip k acc comp rest h1] at hw
      exact ih acc hacc hlrest w hw
    · by_cases h2 : comp ≠ ['.', '.'] ∨ (k = 0 ∧ acc = []) ∨
          (acc ≠ [] ∧ acc.head? = some ['.', '.'])
      · rw [newComps_push k acc comp rest h1 h2] at hw
        refine ih (comp :: acc) ?_ hlrest w hw
        intro x hx
        rcases List.mem_cons.mp hx with rfl | hx2
        · have hdd : x ≠ ['.', '.'] := by
            rcases h2 with h2a | ⟨h2b, _⟩ | ⟨h2c, h2d⟩
            · exact h2a
            · exact absurd h2b hk
            · intro hxdd
              have := List.mem_of_mem_head? h2d
              exact (hacc _ this).2.2.1 rfl
          push_neg at h1
          exact ⟨h1.1, h1.2, hdd, hl x (List.mem_cons_self _ _)⟩
        · exact hacc x hx2
      · have hpop : newComps k acc (comp :: rest) = newComps k acc.tail rest := by
          simp only [newComps, if_neg h1, if_neg h2]
        rw [hpop] at hw
        refine ih acc.tail ?_ hlrest w hw
        intro x hx
        exact hacc x (List.mem_of_mem_tail hx)

/-- Helper: with a nonzero slash count and every component already
normalized, the processing loop is the identity (prefixed by the
reversed accumulator). -/
theorem newComps_fix (k : Nat) (_hk : k ≠ 0) :
    ∀ (l acc : List (List Char)),
      (∀ w ∈ acc, GoodComp w) → (∀ w ∈ l, GoodComp w) →
      newComps k acc l = acc.reverse ++ l := by
  intro l
  induction l with
  | nil =>
    intro acc _ _
    simp [newComps_nil]
  | cons comp rest ih =>
    intro acc hacc hl
    have hcomp : GoodComp comp := hl comp (List.mem_cons_self _ _)
    have h1 : ¬ (comp = [] ∨ comp = ['.']) := by
      rintro (h | h)
      · exact hcomp.1 h
      · exact hcomp.2.1 h
    rw [newComps_push k acc comp rest h1 (Or.inl hcomp.2.2.1)]
    rw [ih (comp :: acc) ?_ (fun x hx => hl x (List.mem_cons_of_mem _ hx))]
    · simp
    · intro x hx
      rcases List.mem_cons.mp hx with rfl | hx2
      · exact hcomp
      · exact hacc x hx2

/-- Helper: joining the root onto any path yields a slash-initial path. -/
theorem posixJoin_root_head (p : List Char) :
    ∃ q, posixJoin (chars "/") p = '/' :: q := by
  cases p with
  | nil => exact ⟨[], by decide⟩
  | cons c cs =>
    by_cases hc : c = '/'
    · refine ⟨cs, ?_⟩
      subst hc
      unfold posixJoin
      rw [if_pos (show ('/' :: cs).take 1 = ['/'] from rfl)]
    · refine ⟨c :: cs, ?_⟩
      unfold posixJoin
      have h1 : ¬ ((c :: cs).take 1 = ['/']) := by
        intro hcon
        have hx : (c :: cs).take 1 = [c] := rfl
        rw [hx] at hcon
        exact hc (by simpa using hcon)
      rw [if_neg h1,
        if_pos (show chars "/" = [] ∨ (chars "/").getLast? = some '/' from Or.inr rfl)]
      rfl

/-- Helper: the slash count of a slash-initial path is one or two. -/
theorem initialSlashes_of_head (q : List Char) :
    initialSlashes ('/' :: q) = 1 ∨ initialSlashes ('/' :: q) = 2 := by
  unfold initialSlashes
  by_cases h : ('/' :: q).take 2 = ['/', '/'] ∧ ¬ (('/' :: q).take 3 = ['/', '/', '/'])
  · rw [if_pos h]
    exact Or.inr rfl
  · rw [if_neg h, if_pos (show ('/' :: q).take 1 = ['/'] from rfl)]
    exact Or.inl rfl

/-- Helper: every output of normalize_path is a positive run of slashes
followed by joined normalized components. -/
theorem normalize_form (p : List Char) :
    ∃ k comps, (k = 1 ∨ k = 2) ∧ (∀ w ∈ comps, GoodComp w) ∧
      normalize_path p = List.replicate k '/' ++ joinComps comps := by
  obtain ⟨q, hq⟩ := posixJoin_root_head p
  have hk12 := initialSlashes_of_head q
  have hk0 : initialSlashes ('/' :: q) ≠ 0 := by
    rcases hk12 with h | h <;> rw [h] <;> simp
  refine ⟨initialSlashes ('/' :: q),
    newComps (initialSlashes ('/' :: q)) [] (splitSlash ('/' :: q)),
    hk12, ?_, ?_⟩
  · exact newComps_good _ hk0 _ [] (by simp) (splitSlash_no_slash _)
  · unfold normalize_path
    rw [hq]
    unfold normpath
    rw [if_neg (by simp)]
    have hrne : List.replicate (initialSlashes ('/' :: q)) '/' ++
        joinComps (newComps (initialSlashes ('/' :: q)) [] (splitSlash ('/' :: q))) ≠ [] := by
      rcases hk12 with h | h <;> rw [h] <;> simp [List.replicate_succ]
    rw [if_neg hrne]

/-- Helper: a join of normalized components never starts with a slash. -/
theorem joinComps_head (comps : List (List Char))
    (h : ∀ w ∈ comps, GoodComp w) : ¬ (joinComps comps).take 1 = ['/'] := by
  cases comps with
  | nil => simp [joinComps]
  | cons w ws =>
    have hw := h w (List.mem_cons_self _ _)
    cases hwc : w with
    | nil => exact absurd hwc hw.1
    | cons a as =>
      have ha : ¬ a = '/' := by
        intro e
        exact hw.2.2.2 (by rw [hwc, e]; exact List.mem_cons_self _ _)
      cases ws with
      | nil =>
        intro hcon
        have hx : (joinComps [a :: as]).take 1 = [a] := rfl
        rw [hx] at hcon
        exact ha (by simpa using hcon)
      | cons w2 ws2 =>
        rw [joinComps_cons2]
        intro hcon
        have hx : ((a :: as) ++ '/' :: joinComps (w2 :: ws2)).take 1 = [a] := rfl
        rw [hx] at hcon
        exact ha (by simpa using hcon)

/-- Helper: the slash count recomputed on a normal form is unchanged. -/
theorem initialSlashes_form (k : Nat) (hk : k = 1 ∨ k = 2)
    (comps : List (List Char)) (h : ∀ w ∈ comps, GoodComp w) :
    initialSlashes (List.replicate k '/' ++ joinComps comps) = k := by
  have hhd := joinComps_head comps h
  rcases hk with rfl | rfl
  · have hq : List.replicate 1 '/' ++ joinComps comps = '/' :: joinComps comps := rfl
    rw [hq]
    unfold initialSlashes
    have h2 : ¬ (('/' :: joinComps comps).take 2 = ['/', '/'] ∧
        ¬ (('/' :: joinComps comps).take 3 = ['/', '/', '/'])) := by
      rintro ⟨h2a, _⟩
      have hx : ('/' :: joinComps comps).take 2 = '/' :: (joinComps comps).take 1 := rfl
      rw [hx] at h2a
      exact hhd (by simpa using h2a)
    rw [if_neg h2, if_pos (show ('/' :: joinComps comps).take 1 = ['/'] from rfl)]
  · have hq : List.replicate 2 '/' ++ joinComps comps =
        '/' :: '/' :: joinComps comps := rfl
    rw [hq]
    unfold initialSlashes
    have h2 : ('/' :: '/' :: joinComps comps).take 2 = ['/', '/'] ∧
        ¬ (('/' :: '/' :: joinComps comps).take 3 = ['/', '/', '/']) := by
      refine ⟨rfl, ?_⟩
      intro h3
      have hx : ('/' :: '/' :: joinComps comps).take 3 =
          '/' :: '/' :: (joinComps comps).take 1 := rfl
      rw [hx] at h3
      exact hhd (by simpa using h3)
    rw [if_pos h2]

/-- Helper: normalize_path is the identity on normal forms. -/
theorem normalize_fix (k : Nat) (hk : k = 1 ∨ k = 2)
    (comps : List (List Char)) (h : ∀ w ∈ comps, GoodComp w) :
    normalize_path (List.replicate k '/' ++ joinComps comps) =
      List.replicate k '/' ++ joinComps comps := by
  have hk0 : k ≠ 0 := by rcases hk with rfl | rfl <;> simp
  have hq1 : (List.replicate k '/' ++ joinComps comps).take 1 = ['/'] := by
    rcases hk with rfl | rfl <;> rfl
  have hne : List.replicate k '/' ++ joinComps comps ≠ [] := by
    rcases hk with rfl | rfl <;> simp [List.replicate_succ]
  have hnc : newComps k [] (splitSlash (List.replicate k '/' ++ joinComps comps)) =
      comps := by
    rw [splitSlash_replicate, newComps_skip_repl]
    by_cases hc : comps = []
    · subst hc
      rw [show joinComps ([] : List (List Char)) = [] from rfl]
      rw [show splitSlash [] = [[]] from rfl]
      rw [newComps_skip k [] [] [] (Or.inl rfl)]
      rfl
    · rw [splitSlash_join comps hc (fun x hx => (h x hx).2.2.2),
        newComps_fix k hk0 comps [] (by simp) h]
      simp
  unfold normalize_path
  rw [show posixJoin (chars "/") (List.replicate k '/' ++ joinComps comps) =
      List.replicate k '/' ++ joinComps comps from by
    unfold posixJoin
    rw [if_pos hq1]]
  unfold normpath
  rw [if_neg hne, initialSlashes_form k hk comps h]
  simp only [hnc]
  rw [if_neg hne]

/-- Claim C4: path normalization of the cloud-backed gateway is
idempotent — normalizing an already-normalized path returns it
unchanged — and the two quoted examples normalize as stated. -/
theorem normalize_path_idem :
    (∀ p : List Char, normalize_path (normalize_path p) = normalize_path p) ∧
    normalize_path (chars "a/b/../c") = chars "/a/c" ∧
    normalize_path (chars "/a//b") = chars "/a/b" := by
  refine ⟨?_, by decide, by decide⟩
  intro p
  obtain ⟨k, comps, hk, hcomps, heq⟩ := normalize_form p
  rw [heq]
  exact normalize_fix k hk comps hcomps

/-- Witness for claim C6: removing the file at /f succeeds and returns
the state with that object marked deleted. -/
theorem remove_spec_witness :
    remove clientC1 (chars "/f") =
      (RequestStatus.OKAY, deleteAt clientC1 (chars "/f") fileObjF) := by
  have h := (remove_spec clientC1 (chars "/f")).2 fileObjF (by decide)
  have h2 : normalize_path (chars "/f") = chars "/f" := by decide
  rw [h2] at h
  exact h
